import Mathlib

/-!
Verification of the jot agent core: token estimation (internal/llm/provider.go),
message grouping and trimming (internal/llm/trim.go), and the tool-calling
control loop (internal/agent/agent.go), embedded shallowly in Lean.
-/

set_option maxHeartbeats 1000000

namespace Jot

/-- A tool invocation requested by the assistant (internal/llm/client.go,
`ToolCall`).  The Go `Params map[string]any` field is represented by its JSON
serialization: the code only ever touches the params through `json.Marshal`
(for token estimation and for the wire format), and marshalling a map decoded
from JSON cannot fail, so the serialized string carries all the information
the core uses. -/
structure ToolCall where
  id : String
  name : String
  params : String
deriving DecidableEq

/-- One conversation message (internal/llm/client.go, `Message`). -/
structure Message where
  role : String
  content : String
  toolCalls : List ToolCall
  toolCallID : String
deriving DecidableEq

/-- A chat-completion response (internal/llm/client.go, `Response`). -/
structure Response where
  content : String
  toolCalls : List ToolCall
deriving DecidableEq

/-- internal/llm/provider.go: `charsPerToken = 4`. -/
def charsPerToken : Nat := 4

/-- internal/llm/provider.go, `EstimateTokens`: 0 for the empty string, else
`(len(s) + charsPerToken - 1) / charsPerToken` where `len` is the byte length
of the UTF-8 encoding, as in Go. -/
def EstimateTokens (s : String) : Nat :=
  if s.utf8ByteSize = 0 then 0
  else (s.utf8ByteSize + charsPerToken - 1) / charsPerToken

/-- internal/llm/provider.go, `EstimateMessageTokens`: 4 overhead, plus the
content estimate, plus per tool call name + serialized params + 4 framing,
plus id + 2 when the message is a tool result. -/
def EstimateMessageTokens (m : Message) : Nat :=
  4 + EstimateTokens m.content
    + (m.toolCalls.map (fun tc => EstimateTokens tc.name + EstimateTokens tc.params + 4)).sum
    + (if m.toolCallID = "" then 0 else EstimateTokens m.toolCallID + 2)

/-- internal/llm/provider.go, `EstimateMessagesTokens`: sum over the list. -/
def EstimateMessagesTokens (l : List Message) : Nat :=
  (l.map EstimateMessageTokens).sum

/-- internal/llm/trim.go, `messageGroup`. -/
structure messageGroup where
  messages : List Message
  tokens : Nat
deriving DecidableEq

/-- The inner collection loop of `groupMessages` (internal/llm/trim.go lines
74-79): take the longest prefix of tool-result messages (those with a non-empty tool call id),
returning it together with the remainder. -/
def spanResults : List Message → List Message × List Message
  | [] => ([], [])
  | m :: ms =>
    if m.toolCallID = "" then ([], m :: ms)
    else
      let p := spanResults ms
      (m :: p.1, p.2)

/-- internal/llm/trim.go, `groupMessages`: an assistant message carrying tool
calls opens a group that absorbs all immediately following tool-result
messages; any other message is a group by itself.  Group token counts are
accumulated with `EstimateMessageTokens` exactly as in the Go loop. -/
def groupMessages : List Message → List messageGroup
  | [] => []
  | m :: rest =>
    if m.role = "assistant" ∧ m.toolCalls ≠ [] then
      ⟨m :: (spanResults rest).1,
        EstimateMessageTokens m + EstimateMessagesTokens (spanResults rest).1⟩
        :: groupMessages (spanResults rest).2
    else
      ⟨[m], EstimateMessageTokens m⟩ :: groupMessages rest
termination_by l => l.length
decreasing_by
  all_goals simp_wf
  have hspan : ∀ l : List Message, (spanResults l).2.length ≤ l.length := by
    intro l
    induction l with
    | nil => simp [spanResults]
    | cons m ms ih =>
      by_cases h : m.toolCallID = ""
      · simp [spanResults, h]
      · simp only [spanResults, if_neg h]
        exact Nat.le_succ_of_le ih
  exact Nat.lt_succ_of_le (hspan _)

/-- Sum of the per-group token counts, as computed by the `total` loop of
`TrimMessages` (internal/llm/trim.go lines 23-26). -/
def totalTokens (gs : List messageGroup) : Nat :=
  (gs.map messageGroup.tokens).sum

/-- The drop loop of `TrimMessages` (internal/llm/trim.go lines 33-38): advance
a drop cursor from the front while at least one further group would remain and
the kept total still exceeds the budget. -/
def dropCount : List messageGroup → Int → Int → Nat
  | [], _, _ => 0
  | [_], _, _ => 0
  | g :: g2 :: gs, kept, maxTokens =>
    if maxTokens < kept then dropCount (g2 :: gs) (kept - (g.tokens : Int)) maxTokens + 1
    else 0

/-- Concatenation of the surviving groups (internal/llm/trim.go lines 41-44). -/
def joinGroups (gs : List messageGroup) : List Message :=
  (gs.map messageGroup.messages).flatten

/-- internal/llm/trim.go, `TrimMessages`: return an empty history unchanged;
return the history unchanged when the group total fits the budget; otherwise
drop whole groups from the front (never touching the last group) and
concatenate the survivors. -/
def TrimMessages (messages : List Message) (maxTokens : Int) : List Message :=
  if messages = [] then messages
  else if (totalTokens (groupMessages messages) : Int) ≤ maxTokens then messages
  else
    joinGroups ((groupMessages messages).drop
      (dropCount (groupMessages messages) ((totalTokens (groupMessages messages) : Nat) : Int)
        maxTokens))

/-- The shape of an assistant message that opens a tool-call group. -/
def invShape (m : Message) : Prop := m.role = "assistant" ∧ m.toolCalls ≠ []

instance (m : Message) : Decidable (invShape m) := by
  unfold invShape; infer_instance

/-- The first message of the first group (if any) is not a tool result. -/
def headClear : List messageGroup → Prop
  | [] => True
  | g :: _ => ∀ m, g.messages.head? = some m → m.toolCallID = ""

/-- Invariant on group lists produced by `groupMessages`: each group is
either an invocation group (invocation head, tool-result tail, and the next
group does not start with a tool result) or a singleton of a non-invocation
message, and its token count is the estimator total of its messages. -/
def GoodGroups : List messageGroup → Prop
  | [] => True
  | g :: gs =>
    (∃ m rs, g.messages = m :: rs ∧
      g.tokens = EstimateMessagesTokens g.messages ∧
      (invShape m ∧ (∀ r ∈ rs, r.toolCallID ≠ "") ∨ ¬ invShape m ∧ rs = [])) ∧
    (∀ m rs, g.messages = m :: rs → invShape m → headClear gs) ∧
    GoodGroups gs

/-- internal/agent/agent.go: `maxToolRounds = 10`. -/
def maxToolRounds : Nat := 10

/-- internal/agent/agent.go line 74: the fixed fallback text returned when the
round cap is exhausted. -/
def fallbackText : String :=
  "I hit the maximum number of tool calls. Here\x27s what I have so far."

/-- The agent with its collaborators (internal/agent/agent.go, `Agent`).
`client i trimmed` models the `i`-th call to `client.Chat` of a turn (the
stateful Go client is modelled by indexing the calls); `execTool` models
`Agent.executeTool`, which always returns a serialized result string and never
fails; `fixedTokens` models `EstimateTokens(SystemPrompt) +
EstimateToolsTokens(AgentTools)` (agent.go line 33), a constant of the process
whose concrete value the control-loop properties do not depend on. -/
structure AgentM where
  client : Nat → List Message → Except String Response
  execTool : String → String → String
  maxContextTokens : Int
  fixedTokens : Int

/-- internal/agent/agent.go lines 33-37: subtract the fixed costs, floored at
1000. -/
def messageBudget (a : AgentM) : Int :=
  if a.maxContextTokens - a.fixedTokens < 1000 then 1000
  else a.maxContextTokens - a.fixedTokens

/-- The user message appended at the start of a turn (agent.go line 30). -/
def mkUserMsg (s : String) : Message :=
  ⟨"user", s, [], ""⟩

/-- The final assistant message of a successful turn (agent.go line 51). -/
def mkAssistantMsg (s : String) : Message :=
  ⟨"assistant", s, [], ""⟩

/-- The assistant message recording a tool-calling response (agent.go
lines 56-60). -/
def mkInvocationMsg (r : Response) : Message :=
  ⟨"assistant", r.content, r.toolCalls, ""⟩

/-- The tool-result messages appended for the tool calls of a round, in call order
(agent.go lines 63-71). -/
def toolResults (a : AgentM) (tcs : List ToolCall) : List Message :=
  tcs.map (fun tc => ⟨"user", a.execTool tc.name tc.params, [], tc.id⟩)

/-- The round loop of `Agent.Run` (agent.go lines 39-74).  `round` is the loop
index `i`; `fuel` is the number of rounds still allowed, so the loop starts
with `fuel = maxToolRounds` and falls through to the fallback return when the
fuel is exhausted. -/
def runLoop (a : AgentM) (budget : Int) : Nat → Nat → List Message →
    Except String (String × List Message)
  | _, 0, messages => .ok (fallbackText, messages)
  | round, fuel + 1, messages =>
    match a.client round (TrimMessages messages budget) with
    | .error e => .error ("llm chat: " ++ e)
    | .ok resp =>
      if resp.toolCalls = [] then
        .ok (resp.content, messages ++ [mkAssistantMsg resp.content])
      else
        runLoop a budget (round + 1) fuel
          (messages ++ mkInvocationMsg resp :: toolResults a resp.toolCalls)

/-- internal/agent/agent.go, `Agent.Run`: copy the history, append the user
message, and run the round loop with the computed message budget. -/
def Run (a : AgentM) (history : List Message) (userMessage : String) :
    Except String (String × List Message) :=
  runLoop a (messageBudget a) 0 maxToolRounds (history ++ [mkUserMsg userMessage])

/-- The predicate stating that `ext` is the transcript extension produced by `n`
consecutive tool rounds — each round contributes one invocation message
followed by one tool-result message per tool call, in call order. -/
inductive ToolRounds (a : AgentM) : Nat → List Message → Prop
  | nil : ToolRounds a 0 []
  | cons {n : Nat} (resp : Response) (rest : List Message) :
      resp.toolCalls ≠ [] → ToolRounds a n rest →
      ToolRounds a (n + 1) (mkInvocationMsg resp :: (toolResults a resp.toolCalls ++ rest))

/-- The tool call of the spec scenario for grouping. -/
def exCall : ToolCall :=
  ⟨"c1", "t1", "p"⟩

/-- The scenario history: user, assistant, user, assistant with one tool
call, its result, assistant. -/
def exHistory : List Message :=
  [⟨"user", "q1", [], ""⟩,
   ⟨"assistant", "a1", [], ""⟩,
   ⟨"user", "q2", [], ""⟩,
   ⟨"assistant", "", [exCall], ""⟩,
   ⟨"user", "r1", [], "c1"⟩,
   ⟨"assistant", "a2", [], ""⟩]

/-- A chat response that always requests one tool call (concrete instance for
the round-cap behaviour). -/
def wRespTC : Response :=
  ⟨"", [⟨"id1", "get_time", "p"⟩]⟩

/-- An agent whose client requests a tool call on every round. -/
def wAgentTC : AgentM :=
  ⟨fun _ _ => .ok wRespTC, fun _ _ => "ok", 200000, 500⟩

/-- A chat response with no tool calls (concrete instance for the
final-answer behaviour). -/
def wRespFA : Response :=
  ⟨"done", []⟩

/-- An agent whose client immediately returns a final answer. -/
def wAgentFA : AgentM :=
  ⟨fun _ _ => .ok wRespFA, fun _ _ => "ok", 200000, 500⟩

/-- An agent whose client always fails with a transport error. -/
def wAgentErr : AgentM :=
  ⟨fun _ _ => .error ("boom"), fun _ _ => "ok", 200000, 500⟩

/-! ## Lemmas about spans and grouping -/

theorem spanResults_append_eq (l : List Message) :
    (spanResults l).1 ++ (spanResults l).2 = l := by
  induction l with
  | nil => simp [spanResults]
  | cons m ms ih =>
    by_cases h : m.toolCallID = "" <;> simp [spanResults, h, ih]

theorem spanResults_fst_results (l : List Message) :
    ∀ r ∈ (spanResults l).1, r.toolCallID ≠ "" := by
  induction l with
  | nil => simp [spanResults]
  | cons m ms ih =>
    by_cases h : m.toolCallID = ""
    · simp [spanResults, h]
    · simp only [spanResults, if_neg h]
      intro r hr
      rcases List.mem_cons.mp hr with hr | hr
      · exact hr ▸ h
      · exact ih r hr

theorem spanResults_snd_head (l : List Message) :
    ∀ m, (spanResults l).2.head? = some m → m.toolCallID = "" := by
  induction l with
  | nil => simp [spanResults]
  | cons m ms ih =>
    by_cases h : m.toolCallID = ""
    · simp [spanResults, h]
    · simp only [spanResults, if_neg h]
      exact ih

theorem EstimateMessagesTokens_nil : EstimateMessagesTokens [] = 0 := rfl

theorem EstimateMessagesTokens_cons (m : Message) (l : List Message) :
    EstimateMessagesTokens (m :: l) = EstimateMessageTokens m + EstimateMessagesTokens l := by
  simp [EstimateMessagesTokens]

theorem EstimateMessagesTokens_append (xs ys : List Message) :
    EstimateMessagesTokens (xs ++ ys) = EstimateMessagesTokens xs + EstimateMessagesTokens ys := by
  simp [EstimateMessagesTokens]

theorem joinGroups_nil : joinGroups [] = [] := rfl

theorem joinGroups_cons (g : messageGroup) (gs : List messageGroup) :
    joinGroups (g :: gs) = g.messages ++ joinGroups gs := by
  simp [joinGroups]

theorem joinGroups_append (xs ys : List messageGroup) :
    joinGroups (xs ++ ys) = joinGroups xs ++ joinGroups ys := by
  simp [joinGroups]

theorem totalTokens_nil : totalTokens [] = 0 := rfl

theorem totalTokens_cons (g : messageGroup) (gs : List messageGroup) :
    totalTokens (g :: gs) = g.tokens + totalTokens gs := by
  simp [totalTokens]

theorem totalTokens_append (xs ys : List messageGroup) :
    totalTokens (xs ++ ys) = totalTokens xs + totalTokens ys := by
  simp [totalTokens]

theorem groupMessages_nil : groupMessages [] = [] := by
  rw [groupMessages]

/-- Grouping covers the input: concatenating the messages of the groups in order
reproduces the original list. -/
theorem joinGroups_groupMessages (l : List Message) :
    joinGroups (groupMessages l) = l := by
  induction l using groupMessages.induct with
  | case1 => rw [groupMessages_nil]; rfl
  | case2 m rest h ih =>
    rw [groupMessages, if_pos h, joinGroups_cons, ih]
    simpa using spanResults_append_eq rest
  | case3 m rest h ih =>
    rw [groupMessages, if_neg h, joinGroups_cons, ih]
    rfl

/-- The head of `groupMessages (m :: rest)` is a group whose first message
is `m`. -/
theorem groupMessages_cons_shape (m : Message) (rest : List Message) :
    ∃ g gs, groupMessages (m :: rest) = g :: gs ∧ g.messages.head? = some m := by
  by_cases h : m.role = "assistant" ∧ m.toolCalls ≠ []
  · exact ⟨⟨m :: (spanResults rest).1,
      EstimateMessageTokens m + EstimateMessagesTokens (spanResults rest).1⟩,
      groupMessages (spanResults rest).2, by rw [groupMessages, if_pos h], rfl⟩
  · exact ⟨⟨[m], EstimateMessageTokens m⟩, groupMessages rest,
      by rw [groupMessages, if_neg h], rfl⟩

/-- The total of the group token counts is the estimator total of the input. -/
theorem totalTokens_groupMessages (l : List Message) :
    totalTokens (groupMessages l) = EstimateMessagesTokens l := by
  induction l using groupMessages.induct with
  | case1 => rw [groupMessages_nil]; rfl
  | case2 m rest h ih =>
    rw [groupMessages, if_pos h, totalTokens_cons, ih]
    have hsplit : EstimateMessagesTokens rest
        = EstimateMessagesTokens (spanResults rest).1
          + EstimateMessagesTokens (spanResults rest).2 := by
      rw [← EstimateMessagesTokens_append, spanResults_append_eq]
    rw [EstimateMessagesTokens_cons, hsplit]
    ring
  | case3 m rest h ih =>
    rw [groupMessages, if_neg h, totalTokens_cons, ih, EstimateMessagesTokens_cons]

theorem headClear_groupMessages (l : List Message)
    (h : ∀ m, l.head? = some m → m.toolCallID = "") :
    headClear (groupMessages l) := by
  match l with
  | [] => rw [groupMessages_nil]; exact trivial
  | m :: rest =>
    obtain ⟨g, gs, heq, hhd⟩ := groupMessages_cons_shape m rest
    rw [heq]
    intro mh hmh
    rw [hhd] at hmh
    injection hmh with hmh
    subst hmh
    exact h _ rfl

theorem goodGroups_groupMessages (l : List Message) :
    GoodGroups (groupMessages l) := by
  induction l using groupMessages.induct with
  | case1 => rw [groupMessages_nil]; exact trivial
  | case2 m rest h ih =>
    rw [groupMessages, if_pos h]
    refine ⟨⟨m, (spanResults rest).1, rfl, ?_, Or.inl ⟨h, spanResults_fst_results rest⟩⟩,
      fun _ _ _ _ => ?_, ih⟩
    · rw [EstimateMessagesTokens_cons]
    · exact headClear_groupMessages _ (spanResults_snd_head rest)
  | case3 m rest h ih =>
    rw [groupMessages, if_neg h]
    refine ⟨⟨m, [], rfl, ?_, Or.inr ⟨h, rfl⟩⟩, ?_, ih⟩
    · simp [EstimateMessagesTokens]
    · intro mh rsh heq hc
      injection heq with h1 h2
      subst h1
      exact absurd hc h

theorem GoodGroups.tail {g : messageGroup} {gs : List messageGroup}
    (h : GoodGroups (g :: gs)) : GoodGroups gs := h.2.2

theorem GoodGroups.drop {gs : List messageGroup} (h : GoodGroups gs) (k : Nat) :
    GoodGroups (gs.drop k) := by
  induction k generalizing gs with
  | zero => exact h
  | succ k ih =>
    match gs with
    | [] => exact trivial
    | g :: gs => exact ih h.2.2

/-- If every element of `xs` is a tool result and `ys` does not start with
one, the result span of `xs ++ ys` is exactly `(xs, ys)`. -/
theorem spanResults_of_append (xs ys : List Message)
    (hx : ∀ r ∈ xs, r.toolCallID ≠ "")
    (hy : ∀ m, ys.head? = some m → m.toolCallID = "") :
    spanResults (xs ++ ys) = (xs, ys) := by
  induction xs with
  | nil =>
    match ys with
    | [] => rfl
    | m :: ys' =>
      have hm : m.toolCallID = "" := hy m rfl
      simp [spanResults, hm]
  | cons x xs ih =>
    have hx0 : x.toolCallID ≠ "" := hx x (List.mem_cons_self x xs)
    have ih' := ih (fun r hr => hx r (List.mem_cons_of_mem x hr))
    simp [spanResults, hx0, ih']

theorem headClear_joinGroups {gs : List messageGroup}
    (hg : GoodGroups gs) (hc : headClear gs) :
    ∀ m, (joinGroups gs).head? = some m → m.toolCallID = "" := by
  match gs with
  | [] => intro m hm; simp [joinGroups] at hm
  | g :: gs =>
    obtain ⟨m0, rs, hmsg, -, -⟩ := hg.1
    intro m hm
    rw [joinGroups_cons, hmsg] at hm
    simp only [List.cons_append, List.head?_cons] at hm
    injection hm with hm
    subst hm
    exact hc m0 (by rw [hmsg]; rfl)

/-- Regrouping the concatenation of a well-formed group list reproduces it. -/
theorem groupMessages_joinGroups {gs : List messageGroup} (hg : GoodGroups gs) :
    groupMessages (joinGroups gs) = gs := by
  induction gs with
  | nil => rw [joinGroups_nil, groupMessages_nil]
  | cons g gs ih =>
    obtain ⟨⟨m, rs, hmsg, htok, hcase⟩, hhc, hgs⟩ := hg
    rw [joinGroups_cons, hmsg]
    rcases hcase with ⟨hinv, hres⟩ | ⟨hninv, hrs⟩
    · have hclear : headClear gs := hhc m rs hmsg hinv
      have hspan : spanResults (rs ++ joinGroups gs) = (rs, joinGroups gs) :=
        spanResults_of_append rs (joinGroups gs) hres (headClear_joinGroups hgs hclear)
      have hinv2 : m.role = "assistant" ∧ m.toolCalls ≠ [] := hinv
      have heq : (m :: rs) ++ joinGroups gs = m :: (rs ++ joinGroups gs) := by simp
      rw [heq, groupMessages, if_pos hinv2, hspan]
      refine congrArg₂ _ ?_ (ih hgs)
      cases g
      simp only at hmsg htok
      subst hmsg
      simp [htok, EstimateMessagesTokens_cons]
    · subst hrs
      have hninv2 : ¬ (m.role = "assistant" ∧ m.toolCalls ≠ []) := hninv
      have heq : (m :: ([] : List Message)) ++ joinGroups gs = m :: joinGroups gs := by simp
      rw [heq, groupMessages, if_neg hninv2]
      refine congrArg₂ _ ?_ (ih hgs)
      cases g
      simp only at hmsg htok
      subst hmsg
      simp [htok, EstimateMessagesTokens]

theorem GoodGroups.messages_ne_nil {gs : List messageGroup} (h : GoodGroups gs) :
    ∀ g ∈ gs, g.messages ≠ [] := by
  induction gs with
  | nil => simp
  | cons g gs ih =>
    intro g' hg'
    rcases List.mem_cons.mp hg' with hg' | hg'
    · obtain ⟨m, rs, hmsg, -, -⟩ := h.1
      rw [hg', hmsg]
      simp
    · exact ih h.2.2 g' hg'

/-! ## Behaviour of the drop loop -/

/-- The drop cursor never reaches past the last group. -/
theorem dropCount_lt_length :
    ∀ (gs : List messageGroup) (kept b : Int), gs ≠ [] → dropCount gs kept b < gs.length
  | [], _, _, h => absurd rfl h
  | [g], kept, b, _ => by
    show dropCount [g] kept b < 1
    rw [show dropCount [g] kept b = 0 from rfl]
    exact Nat.zero_lt_one
  | g :: g2 :: gs, kept, b, _ => by
    rw [dropCount]
    by_cases hc : b < kept
    · rw [if_pos hc]
      have ih := dropCount_lt_length (g2 :: gs) (kept - (g.tokens : Int)) b (by simp)
      simp only [List.length_cons] at ih ⊢
      omega
    · rw [if_neg hc]
      simp

/-- When the drop loop stops, either the kept total fits the budget or the
cursor is at the last group. -/
theorem dropCount_spec :
    ∀ (gs : List messageGroup) (kept b : Int),
      kept - (totalTokens (gs.take (dropCount gs kept b)) : Int) ≤ b ∨
        gs.length ≤ dropCount gs kept b + 1
  | [], kept, b => by
    right
    simp [dropCount]
  | [g], kept, b => by
    right
    simp [dropCount]
  | g :: g2 :: gs, kept, b => by
    rw [dropCount]
    by_cases hc : b < kept
    · rw [if_pos hc]
      rcases dropCount_spec (g2 :: gs) (kept - (g.tokens : Int)) b with ih | ih
      · left
        rw [List.take_succ_cons, totalTokens_cons]
        push_cast at ih ⊢
        omega
      · right
        simp only [List.length_cons] at ih ⊢
        omega
    · rw [if_neg hc]
      left
      push_neg at hc
      simpa [totalTokens_nil] using hc

/-! ## Characterization of `TrimMessages` as keeping a suffix of the groups -/

theorem joinGroups_ne_nil {gs : List messageGroup} (hg : GoodGroups gs) (h : gs ≠ []) :
    joinGroups gs ≠ [] := by
  match gs with
  | g :: gs' =>
    obtain ⟨m, rs, hmsg, -, -⟩ := hg.1
    rw [joinGroups_cons, hmsg]
    simp

/-- The trimmed output is the concatenation of a suffix of the group list,
and when the history is non-empty the suffix is non-empty. -/
theorem trim_eq_joinGroups_drop (h : List Message) (b : Int) :
    ∃ k, TrimMessages h b = joinGroups ((groupMessages h).drop k) ∧
      (h ≠ [] → k < (groupMessages h).length) := by
  by_cases hnil : h = []
  · refine ⟨0, ?_, fun hc => absurd hnil hc⟩
    subst hnil
    rw [TrimMessages, if_pos rfl, groupMessages_nil]
    rfl
  · have hgs : groupMessages h ≠ [] := by
      match h with
      | m :: rest =>
        obtain ⟨g, gs, heq, -⟩ := groupMessages_cons_shape m rest
        rw [heq]
        simp
    by_cases hfit : (totalTokens (groupMessages h) : Int) ≤ b
    · refine ⟨0, ?_, ?_⟩
      · rw [TrimMessages, if_neg hnil, if_pos hfit, List.drop_zero, joinGroups_groupMessages]
      · intro _
        exact List.length_pos.mpr hgs
    · refine ⟨dropCount (groupMessages h) ((totalTokens (groupMessages h) : Nat) : Int) b,
        ?_, ?_⟩
      · rw [TrimMessages, if_neg hnil, if_neg hfit]
      · intro _
        exact dropCount_lt_length _ _ _ hgs

theorem joinGroups_drop_suffix (gs : List messageGroup) (k : Nat) :
    ∃ t, t ++ joinGroups (gs.drop k) = joinGroups gs :=
  ⟨joinGroups (gs.take k), by rw [← joinGroups_append, List.take_append_drop]⟩

/-! ## The control loop -/

/-- A client that requests at least one tool call on every round drives the
loop through all its remaining rounds and ends in the fallback return, with
with the invocation and result messages of every round appended in order. -/
theorem runLoop_all_tool_rounds (a : AgentM) (budget : Int) :
    ∀ (fuel round : Nat) (msgs : List Message),
      (∀ i m, ∃ r, a.client i m = Except.ok r ∧ r.toolCalls ≠ []) →
      ∃ ext, runLoop a budget round fuel msgs = .ok (fallbackText, msgs ++ ext) ∧
        ToolRounds a fuel ext := by
  intro fuel
  induction fuel with
  | zero =>
    intro round msgs hcl
    exact ⟨[], by simp [runLoop], ToolRounds.nil⟩
  | succ fuel ih =>
    intro round msgs hcl
    obtain ⟨r, hr, hne⟩ := hcl round (TrimMessages msgs budget)
    obtain ⟨ext, hext, hrounds⟩ :=
      ih (round + 1) (msgs ++ mkInvocationMsg r :: toolResults a r.toolCalls) hcl
    refine ⟨mkInvocationMsg r :: (toolResults a r.toolCalls ++ ext), ?_,
      ToolRounds.cons r ext hne hrounds⟩
    simp only [runLoop, hr]
    rw [if_neg hne, hext]
    simp

/-! ## Claim theorems -/

/-- C1: for every history `h` and budget `b`, `TrimMessages h b` is the
concatenation, in order, of a suffix of `groupMessages h`.  Hence every group
— in particular an invocation message together with its K contiguous result
messages — occurs in the output either in full or not at all; a proper
non-empty subset of the occurrences of a group never survives trimming. -/
theorem trim_keeps_groups_whole (h : List Message) (b : Int) :
    ∃ k, TrimMessages h b = joinGroups ((groupMessages h).drop k) := by
  obtain ⟨k, hk, -⟩ := trim_eq_joinGroups_drop h b
  exact ⟨k, hk⟩

/-- C2: for every non-empty history and every budget — zero, negative, or
smaller than the cost of the final group alone — the trimmed output is non-empty and
the final group of the history survives in full, its messages forming a
suffix of the output. -/
theorem trim_keeps_last_group (h : List Message) (b : Int) (hne : h ≠ []) :
    TrimMessages h b ≠ [] ∧
      ∃ g, (groupMessages h).getLast? = some g ∧
        ∃ t, t ++ g.messages = TrimMessages h b := by
  obtain ⟨k, hk, hlt⟩ := trim_eq_joinGroups_drop h b
  have hklt := hlt hne
  have hgood : GoodGroups (groupMessages h) := goodGroups_groupMessages h
  have hdropne : (groupMessages h).drop k ≠ [] := by
    rw [Ne, List.drop_eq_nil_iff]
    omega
  refine ⟨?_, ?_⟩
  · rw [hk]
    exact joinGroups_ne_nil (hgood.drop k) hdropne
  · rcases List.eq_nil_or_concat' ((groupMessages h).drop k) with hcon | ⟨pre, g, hcon⟩
    · exact absurd hcon hdropne
    · refine ⟨g, ?_, joinGroups pre, ?_⟩
      · have hlast : (groupMessages h).getLast? = ((groupMessages h).drop k).getLast? := by
          conv_lhs => rw [← List.take_append_drop k (groupMessages h)]
          rw [List.getLast?_append_of_ne_nil _ hdropne]
        rw [hlast, hcon, List.getLast?_append_of_ne_nil _ (by simp)]
        rfl
      · rw [hk, hcon, joinGroups_append]
        simp [joinGroups]

/-- Witness for C2 at the scenario history and a negative budget, under which
the whole estimated total exceeds the budget. -/
theorem trim_keeps_last_group_witness :
    exHistory ≠ [] ∧
      (TrimMessages exHistory (-1) ≠ [] ∧
        ∃ g, (groupMessages exHistory).getLast? = some g ∧
          ∃ t, t ++ g.messages = TrimMessages exHistory (-1)) :=
  ⟨by decide, trim_keeps_last_group exHistory (-1) (by decide)⟩

/-- C3: a history whose estimated token total fits the budget is returned
unchanged — same messages, same order, nothing modified. -/
theorem trim_under_budget_unchanged (h : List Message) (b : Int)
    (hle : (EstimateMessagesTokens h : Int) ≤ b) :
    TrimMessages h b = h := by
  by_cases hnil : h = []
  · subst hnil
    rfl
  · rw [TrimMessages, if_neg hnil,
      if_pos (show (totalTokens (groupMessages h) : Int) ≤ b by
        rw [totalTokens_groupMessages]; exact hle)]

/-- Witness for C3 at the scenario history and a generous budget. -/
theorem trim_under_budget_unchanged_witness :
    (EstimateMessagesTokens exHistory : Int) ≤ 1000 ∧
      TrimMessages exHistory 1000 = exHistory :=
  ⟨by decide, trim_under_budget_unchanged exHistory 1000 (by decide)⟩

/-- C4: `TrimMessages` is idempotent — trimming an already-trimmed history
under the same budget returns it unchanged. -/
theorem trim_idempotent (h : List Message) (b : Int) :
    TrimMessages (TrimMessages h b) b = TrimMessages h b := by
  by_cases hnil : h = []
  · subst hnil
    rfl
  · by_cases hfit : (totalTokens (groupMessages h) : Int) ≤ b
    · have hout : TrimMessages h b = h := by
        rw [TrimMessages, if_neg hnil, if_pos hfit]
      rw [hout]
      exact hout
    · have hgsne : groupMessages h ≠ [] := by
        match h with
        | m :: rest =>
          obtain ⟨g, gs, heq, -⟩ := groupMessages_cons_shape m rest
          rw [heq]
          simp
      have hgood := goodGroups_groupMessages h
      set gs := groupMessages h with hgsdef
      set k := dropCount gs ((totalTokens gs : Nat) : Int) b with hkdef
      have hklt : k < gs.length := dropCount_lt_length _ _ _ hgsne
      have hout : TrimMessages h b = joinGroups (gs.drop k) := by
        rw [TrimMessages, if_neg hnil, if_neg hfit]
      have hgoodd : GoodGroups (gs.drop k) := hgood.drop k
      have hdropne : gs.drop k ≠ [] := by
        rw [Ne, List.drop_eq_nil_iff]
        omega
      have houtne : joinGroups (gs.drop k) ≠ [] := joinGroups_ne_nil hgoodd hdropne
      have hregroup : groupMessages (joinGroups (gs.drop k)) = gs.drop k :=
        groupMessages_joinGroups hgoodd
      rw [hout]
      rcases dropCount_spec gs ((totalTokens gs : Nat) : Int) b with hspec | hspec
      · rw [← hkdef] at hspec
        have hsum : totalTokens (gs.take k) + totalTokens (gs.drop k) = totalTokens gs := by
          rw [← totalTokens_append, List.take_append_drop]
        have htt : (totalTokens (gs.drop k) : Int) ≤ b := by
          omega
        rw [TrimMessages, if_neg houtne, hregroup, if_pos htt]
      · rw [← hkdef] at hspec
        have hlen1 : (gs.drop k).length = 1 := by
          rw [List.length_drop]
          omega
        obtain ⟨glast, hglast⟩ := List.length_eq_one.mp hlen1
        rw [TrimMessages, if_neg houtne, hregroup]
        by_cases hfit2 : (totalTokens (gs.drop k) : Int) ≤ b
        · rw [if_pos hfit2]
        · rw [if_neg hfit2, hglast]
          rw [show dropCount [glast] ((totalTokens [glast] : Nat) : Int) b = 0 from rfl]
          rw [List.drop_zero]

/-- C5: the trimmed history is a contiguous suffix of the input — there is an
index `n` with `TrimMessages h b = h.drop n`, so trimming never reorders,
edits, or drops messages from the middle or the end. -/
theorem trim_is_suffix (h : List Message) (b : Int) :
    ∃ n, TrimMessages h b = h.drop n := by
  obtain ⟨k, hk, -⟩ := trim_eq_joinGroups_drop h b
  obtain ⟨t, ht⟩ := joinGroups_drop_suffix (groupMessages h) k
  refine ⟨t.length, ?_⟩
  have hh : t ++ TrimMessages h b = h := by
    rw [hk, ht, joinGroups_groupMessages]
  conv_rhs => rw [← hh]
  rw [List.drop_left]

/-- C6: grouping is an order-preserving exact cover — concatenating the
groups reproduces the input — and on the scenario history the groups have
sizes [1, 1, 1, 2, 1]: five groups, the fourth holding exactly the invocation
and its one result. -/
theorem groupMessages_exact_cover :
    (∀ h : List Message, joinGroups (groupMessages h) = h) ∧
      (groupMessages exHistory).length = 5 ∧
      ((groupMessages exHistory).map (fun g => g.messages.length))[3]? = some 2 := by
  refine ⟨joinGroups_groupMessages, ?_, ?_⟩ <;>
    simp [exHistory, exCall, groupMessages, spanResults]

/-- C7: when the chat client returns a tool-calling response on every round,
`Run` executes exactly `maxToolRounds` (10) rounds and then returns —
without error — the fixed fallback text together with the accumulated
history: the input history, the appended user message, and the invocation
and tool-result messages of all ten rounds in order. -/
theorem run_round_cap_degraded_success (a : AgentM) (history : List Message)
    (user : String)
    (hcl : ∀ i m, ∃ r, a.client i m = Except.ok r ∧ r.toolCalls ≠ []) :
    ∃ ext, Run a history user
        = .ok (fallbackText, (history ++ [mkUserMsg user]) ++ ext) ∧
      ToolRounds a maxToolRounds ext :=
  runLoop_all_tool_rounds a (messageBudget a) maxToolRounds 0
    (history ++ [mkUserMsg user]) hcl

/-- Witness for C7 on a concrete agent whose client always requests a tool
call. -/
theorem run_round_cap_degraded_success_witness :
    ∃ ext, Run wAgentTC [] ("hi")
        = .ok (fallbackText, ([] ++ [mkUserMsg ("hi")]) ++ ext) ∧
      ToolRounds wAgentTC maxToolRounds ext :=
  run_round_cap_degraded_success wAgentTC [] ("hi")
    (fun _ _ => ⟨wRespTC, rfl, by decide⟩)

/-- C8: a response with zero tool calls terminates the turn in that round:
exactly one assistant message carrying the response content is appended to
the working (untrimmed) history, and that content and history are returned.
In particular, a zero-tool-call response on the first round returns the
input history plus the user message plus exactly one assistant message. -/
theorem run_zero_tool_calls_success :
    (∀ (a : AgentM) (budget : Int) (round fuel : Nat) (msgs : List Message) (r : Response),
        a.client round (TrimMessages msgs budget) = Except.ok r → r.toolCalls = [] →
        runLoop a budget round (fuel + 1) msgs
          = .ok (r.content, msgs ++ [mkAssistantMsg r.content])) ∧
    (∀ (a : AgentM) (history : List Message) (user : String) (r : Response),
        a.client 0 (TrimMessages (history ++ [mkUserMsg user]) (messageBudget a))
            = Except.ok r →
        r.toolCalls = [] →
        Run a history user
          = .ok (r.content, (history ++ [mkUserMsg user]) ++ [mkAssistantMsg r.content])) := by
  have key : ∀ (a : AgentM) (budget : Int) (round fuel : Nat) (msgs : List Message)
      (r : Response),
      a.client round (TrimMessages msgs budget) = Except.ok r → r.toolCalls = [] →
      runLoop a budget round (fuel + 1) msgs
        = .ok (r.content, msgs ++ [mkAssistantMsg r.content]) := by
    intro a budget round fuel msgs r hr hnone
    simp only [runLoop, hr]
    rw [if_pos hnone]
  refine ⟨key, fun a history user r hr hnone => ?_⟩
  show runLoop a (messageBudget a) 0 maxToolRounds (history ++ [mkUserMsg user]) = _
  rw [show maxToolRounds = 9 + 1 from rfl]
  exact key a (messageBudget a) 0 9 (history ++ [mkUserMsg user]) r hr hnone

/-- Witness for C8 on a concrete agent whose client immediately answers with
no tool calls. -/
theorem run_zero_tool_calls_success_witness :
    Run wAgentFA [] ("q")
      = .ok (wRespFA.content, ([] ++ [mkUserMsg ("q")]) ++ [mkAssistantMsg wRespFA.content]) :=
  run_zero_tool_calls_success.2 wAgentFA [] ("q") wRespFA rfl rfl

/-- C9: a transport error from the chat client on any round aborts the turn
immediately — `runLoop` (and hence `Run`, for the first round) propagates the
wrapped error to the caller, who receives no reply text or history. -/
theorem run_transport_error_aborts :
    (∀ (a : AgentM) (budget : Int) (round fuel : Nat) (msgs : List Message) (e : String),
        a.client round (TrimMessages msgs budget) = Except.error e →
        runLoop a budget round (fuel + 1) msgs = .error ("llm chat: " ++ e)) ∧
    (∀ (a : AgentM) (history : List Message) (user : String) (e : String),
        a.client 0 (TrimMessages (history ++ [mkUserMsg user]) (messageBudget a))
            = Except.error e →
        Run a history user = .error ("llm chat: " ++ e)) := by
  have key : ∀ (a : AgentM) (budget : Int) (round fuel : Nat) (msgs : List Message)
      (e : String),
      a.client round (TrimMessages msgs budget) = Except.error e →
      runLoop a budget round (fuel + 1) msgs = .error ("llm chat: " ++ e) := by
    intro a budget round fuel msgs e he
    simp only [runLoop, he]
  refine ⟨key, fun a history user e he => ?_⟩
  show runLoop a (messageBudget a) 0 maxToolRounds (history ++ [mkUserMsg user]) = _
  rw [show maxToolRounds = 9 + 1 from rfl]
  exact key a (messageBudget a) 0 9 (history ++ [mkUserMsg user]) e he

/-- Witness for C9 on a concrete agent whose client always fails. -/
theorem run_transport_error_aborts_witness :
    Run wAgentErr [] ("q") = .error ("llm chat: " ++ "boom") :=
  run_transport_error_aborts.2 wAgentErr [] ("q") ("boom") rfl

/-- C10: `EstimateTokens` is the ceiling of the length divided by 4 — 0 on
the empty string, 1 on a four-byte string, 2 on a five-byte string — and is
non-negative. -/
theorem estimateTokens_ceil_div :
    (∀ s : String, EstimateTokens s = (s.utf8ByteSize + 3) / 4) ∧
      (∀ s : String, 0 ≤ (EstimateTokens s : Int)) ∧
      EstimateTokens ("") = 0 ∧ EstimateTokens ("test") = 1 ∧ EstimateTokens ("hello") = 2 := by
  refine ⟨?_, fun s => Int.ofNat_nonneg _, by decide, by decide, by decide⟩
  intro s
  rw [EstimateTokens]
  by_cases h : s.utf8ByteSize = 0
  · rw [if_pos h, h]
  · rw [if_neg h]
    have harg : s.utf8ByteSize + charsPerToken - 1 = s.utf8ByteSize + 3 := by
      simp [charsPerToken]
    rw [harg]
    rfl

end Jot
